import Mathlib

/-!
Shallow embedding of the losers_queue rating engine (src/losersq.py, src/utils.py)
and proofs about its specification claims.

Python dictionaries are embedded as insertion-ordered association lists;
`collections.defaultdict` additionally carries its factory value and inserts it
on reads of missing keys.  Elo ratings are real numbers; match statistics are
rationals.  Stateful dictionary mutation is made explicit by returning the
post-call dictionary alongside each result.
-/

namespace LosersQ

/-! ## Dictionaries -/

/-- Association-list lookup, mirroring Python dict key search (first binding wins). -/
def findVal {κ α : Type} [DecidableEq κ] : List (κ × α) → κ → Option α
  | [], _ => none
  | (k, v) :: rest, key => if k = key then some v else findVal rest key

/-- Association-list store, mirroring Python dict assignment: an existing key keeps
its position and gets the new value; a new key is appended at the end. -/
def setVal {κ α : Type} [DecidableEq κ] : List (κ × α) → κ → α → List (κ × α)
  | [], key, v => [(key, v)]
  | (k, w) :: rest, key, v =>
      if k = key then (k, v) :: rest else (k, w) :: setVal rest key v

/-- Embedding of collections.defaultdict: insertion-ordered entries plus the
factory value produced for missing keys. -/
structure DefaultDict (α : Type) where
  entries : List (String × α)
  dflt : α

/-- Reading d[k] on a defaultdict: a present key returns its stored value and
leaves the dict unchanged; a missing key inserts the factory value at the end
and returns it.  The second component is the dict after the read. -/
def DefaultDict.get {α : Type} (d : DefaultDict α) (k : String) : α × DefaultDict α :=
  match findVal d.entries k with
  | some v => (v, d)
  | none => (d.dflt, ⟨d.entries ++ [(k, d.dflt)], d.dflt⟩)

/-- Writing d[k] = v. -/
def DefaultDict.set {α : Type} (d : DefaultDict α) (k : String) (v : α) : DefaultDict α :=
  ⟨setVal d.entries k v, d.dflt⟩

/-- Value semantics of a defaultdict: the value a read of k yields. -/
def DefaultDict.valueAt {α : Type} (d : DefaultDict α) (k : String) : α :=
  (findVal d.entries k).getD d.dflt

/-- The defaultdict produced by defaultdict(factory): no entries yet. -/
def emptyDD {α : Type} (v : α) : DefaultDict α := ⟨[], v⟩

/-- Sequential defaultdict reads of a list of names, keeping only the dict
(the `for name in names: elos_dict[name]` loop of utils.get_leaderboard). -/
def readNames {α : Type} (d : DefaultDict α) (ns : List String) : DefaultDict α :=
  ns.foldl (fun dd n => (dd.get n).2) d

/-! ## Match records (Participant / Team / Match of src/losersq.py) -/

/-- Per-player data of one match (Participant), restricted to the fields the
engine uses. -/
structure Participant where
  team_id : Nat
  win : Bool
  champ : String
  kills : Nat
  deaths : Nat
  assists : Nat
  multikills : Nat × Nat × Nat × Nat
deriving DecidableEq

/-- Team-level block of a raw match record: team id and win marker
(team_dict with win == 'Win' already decoded to a Bool). -/
structure RTeam where
  team_id : Nat
  win : Bool
deriving DecidableEq

/-- A normalised match record: id, creation time (epoch seconds), the
insertion-ordered participants dict and the two team blocks in file order. -/
structure MatchRec where
  id : Nat
  creation_time : ℚ
  participants : List (String × Participant)
  team_a : RTeam
  team_b : RTeam
deriving DecidableEq

/-- Winning roster in participants order (the winners list built in
calculate_rating_history). -/
def winnersOf (m : MatchRec) : List String :=
  (m.participants.filter (fun p => p.2.win)).map (fun p => p.1)

/-- Losing roster in participants order. -/
def losersOf (m : MatchRec) : List String :=
  (m.participants.filter (fun p => !p.2.win)).map (fun p => p.1)

/-- Every player name appearing in the match. -/
def namesOf (m : MatchRec) : List String :=
  m.participants.map (fun p => p.1)

/-- Members of a team: participants whose team_id matches, in participants
order (Team.__init__). -/
def teamMembersOf (m : MatchRec) (t : RTeam) : List String :=
  (m.participants.filter (fun p => p.2.team_id == t.team_id)).map (fun p => p.1)

/-- Python's stable sort of the two team blocks by win flag (False first):
the pair (losing_team, winning_team) of Match.__init__. -/
def sortedTeams (m : MatchRec) : RTeam × RTeam :=
  if m.team_a.win && !m.team_b.win then (m.team_b, m.team_a) else (m.team_a, m.team_b)

/-- The ingestion guard of LosersQueue.__init__:
len(t1.team_members) == len(t2.team_members) == 5 and t1.win + t2.win == 1. -/
def acceptMatch (m : MatchRec) : Bool :=
  let t1 := (sortedTeams m).1
  let t2 := (sortedTeams m).2
  ((teamMembersOf m t1).length == (teamMembersOf m t2).length)
    && ((teamMembersOf m t2).length == 5)
    && (t1.win.toNat + t2.win.toNat == 1)

/-- Record ingestion of LosersQueue.__init__: accepted matches are stored in an
id-keyed dict (later records overwrite equal ids), rejected records are
skipped; the working set is the dict's values in insertion order. -/
def ingest (records : List MatchRec) : List MatchRec :=
  (records.foldl (fun acc m => if acceptMatch m then setVal acc m.id m else acc)
    ([] : List (Nat × MatchRec))).map (fun p => p.2)

/-! ## EloSystem (PairwiseDelta) -/

/-- Configuration of EloSystem.__init__(self, start_elo=1500, k=32). -/
structure EloSystem where
  start_elo : ℝ := 1500
  k : ℝ := 32

/-- EloSystem() with the default configuration constants. -/
def defaultEloSystem : EloSystem := {}

/-- Expected-score complement of the winning side:
winner_delta = 1 - 1 / (1 + 10 ** ((R_loser - R_winner) / 400)). -/
noncomputable def winnerDelta (rWinner rLoser : ℝ) : ℝ :=
  1 - 1 / (1 + (10 : ℝ) ^ ((rLoser - rWinner) / 400))

/-- The generator sum sum(ratings[p.name] for p in names): sequential reads on
the defaultdict, threading the dict (reads of unseen names insert defaults). -/
def readSum (d : DefaultDict ℝ) (names : List String) : ℝ × DefaultDict ℝ :=
  names.foldl (fun p n => (p.1 + (p.2.get n).1, (p.2.get n).2)) (0, d)

/-- One update loop of get_new_ratings: for each name, read its current value
from new_ratings and store value + delta back. -/
def bumpAll (d : DefaultDict ℝ) (names : List String) (delta : ℝ) : DefaultDict ℝ :=
  names.foldl (fun d n => ((d.get n).2).set n ((d.get n).1 + delta)) d

/-- Shallow embedding of EloSystem.get_new_ratings.  The first component is the
caller's ratings dict after the call (the reads of unseen participants insert
default entries into it); the second is the returned new_ratings dict, which
starts as a deep copy taken before those reads.  (With an empty roster the
Python code raises ZeroDivisionError; the real-number embedding is total, so
claims about updates carry nonempty-roster hypotheses.) -/
noncomputable def eloGetNewRatings (sys : EloSystem) (winners losers : List String)
    (ratings : DefaultDict ℝ) : DefaultDict ℝ × DefaultDict ℝ :=
  let new0 := ratings
  let rw := readSum ratings winners
  let rWinner := rw.1 / (winners.length : ℝ)
  let rl := readSum rw.2 losers
  let rLoser := rl.1 / (losers.length : ℝ)
  let delta := winnerDelta rWinner rLoser
  let afterW := bumpAll new0 winners (sys.k * delta)
  let afterL := bumpAll afterW losers (-(sys.k * delta))
  (rl.2, afterL)

/-- Arithmetic mean of the ratings a roster reads from a snapshot (the
pre-match team rating of get_new_ratings). -/
noncomputable def ddMean (d : DefaultDict ℝ) (names : List String) : ℝ :=
  (names.map d.valueAt).sum / (names.length : ℝ)

/-! ## Rating history builder (LosersQueue.calculate_rating_history) -/

/-- Shallow embedding of calculate_rating_history, generic in the rating value
type and the rating system's update.  upd m d returns the pair (the previous
snapshot object after the update call read it, the new snapshot appended to
the history).  The loop walks reversed(matches) and the result list is
reversed at the end, exactly as in the source. -/
def calcRatingHistory {α : Type}
    (upd : MatchRec → DefaultDict α → DefaultDict α × DefaultDict α)
    (start : DefaultDict α) (ms : List MatchRec) : List (DefaultDict α) :=
  let final := ms.reverse.foldl
    (fun p m => (p.1 ++ [(upd m p.2).1], (upd m p.2).2))
    (([] : List (DefaultDict α)), start)
  (final.1 ++ [final.2]).reverse

/-- Structural companion of the history loop: snapshots in processing order
plus the final snapshot. -/
def replaySnaps {α : Type}
    (upd : MatchRec → DefaultDict α → DefaultDict α × DefaultDict α) :
    DefaultDict α → List MatchRec → List (DefaultDict α) × DefaultDict α
  | d, [] => ([], d)
  | d, m :: r =>
      ((upd m d).1 :: (replaySnaps upd (upd m d).2 r).1,
        (replaySnaps upd (upd m d).2 r).2)

/-- Pure value-level replay: fold the update over a newest-first match list,
applying the rightmost (oldest) match first. -/
def replayPure {α : Type}
    (upd : MatchRec → DefaultDict α → DefaultDict α × DefaultDict α)
    (d : DefaultDict α) (l : List MatchRec) : DefaultDict α :=
  l.foldr (fun m dd => (upd m dd).2) d

/-- The Elo instantiation of the per-match update: rosters are split from the
participants dict in insertion order. -/
noncomputable def eloMatchUpd (sys : EloSystem) (m : MatchRec) (d : DefaultDict ℝ) :
    DefaultDict ℝ × DefaultDict ℝ :=
  eloGetNewRatings sys (winnersOf m) (losersOf m) d

/-- The match list held by LosersQueue: ingested records sorted by creation
time, most recent first (stable descending sort). -/
def lqMatches (records : List MatchRec) : List MatchRec :=
  (ingest records).insertionSort (fun a b => b.creation_time ≤ a.creation_time)

/-- The full pipeline from raw records to the rating history, generic in the
rating system update. -/
def lqHistory {α : Type}
    (upd : MatchRec → DefaultDict α → DefaultDict α × DefaultDict α)
    (start : DefaultDict α) (records : List MatchRec) : List (DefaultDict α) :=
  calcRatingHistory upd start (lqMatches records)

/-- A junk match record used only as the out-of-range value of List.getD. -/
def noMatch : MatchRec := ⟨0, 0, [], ⟨0, false⟩, ⟨0, false⟩⟩

/-! ## Leaderboard (utils.get_leaderboard) -/

/-- Stable descending sort by a key: Python sorted(items, key=key,
reverse=True) keeps equal-key elements in their original order. -/
def sortDesc {β K : Type} [LinearOrder K] (key : β → K) (l : List β) : List β :=
  l.insertionSort (fun a b => key b ≤ key a)

/-- Shallow embedding of utils.get_leaderboard: default the name list to the
dict's keys, run the materialising read loop, then stable-sort the items
descending by the key (identity when the caller passes none, covered by
instantiating key with the rating's own ordering).  Returns the sorted items
and the dict after the read loop. -/
def get_leaderboard {α K : Type} [LinearOrder K] (d : DefaultDict α)
    (names : Option (List String)) (key : α → K) :
    List (String × α) × DefaultDict α :=
  let ns := names.getD (d.entries.map (fun p => p.1))
  (sortDesc (fun p => key p.2) (readNames d ns).entries, readNames d ns)

/-! ## Bayesian team skill ratings (TrueSkill) -/

/-- Bayesian team-skill rating value: mean and uncertainty (floats in the
source, modelled as rationals). -/
structure TSRating where
  mu : ℚ
  sigma : ℚ
deriving DecidableEq

/-- TrueSkill.rating_key from the source: the tuple (rating.mu, -rating.sigma),
ordered lexicographically as Python tuples are. -/
def tsRatingKey (r : TSRating) : ℚ ×ₗ ℚ := toLex (r.mu, -r.sigma)

/-- Modelled from the spec: the comparison of trueskill.Rating objects.  The
trueskill library is an external dependency whose source is not under src/,
and sorted() compares the rating objects themselves because
LosersQueue.leaderboard passes no key to get_leaderboard.  Following the
spec's ordering contract (primarily mean descending, uncertainty breaking
ties in favour of lower uncertainty), a rating is weighed by the
lexicographic pair (mu, -sigma). -/
def tsRatingOrd (r : TSRating) : ℚ ×ₗ ℚ := toLex (r.mu, -r.sigma)

/-- LosersQueue.leaderboard's ordering step: get_leaderboard on the current
snapshot with no name list and no explicit key. -/
def tsLeaderboard (d : DefaultDict TSRating) : List (String × TSRating) :=
  (get_leaderboard d none tsRatingOrd).1

/-! ## Player statistics (PlayerStats) -/

/-- The state PlayerStats carries: the player's name and self._matches. -/
structure PlayerStatsRec where
  name : String
  _matches : List MatchRec
deriving DecidableEq

/-- PlayerStats.__init__: keep the matches the player took part in. -/
def mkPlayerStats (name : String) (ms : List MatchRec) : PlayerStatsRec :=
  ⟨name, ms.filter (fun m => (findVal m.participants name).isSome)⟩

/-- Champion the player played in a match (the participant entry exists by
construction of PlayerStats). -/
def champOf (m : MatchRec) (name : String) : String :=
  ((findVal m.participants name).map (fun p => p.champ)).getD ""

/-- Kills of the player in a match. -/
def pKills (m : MatchRec) (name : String) : Nat :=
  ((findVal m.participants name).map (fun p => p.kills)).getD 0

/-- Deaths of the player in a match. -/
def pDeaths (m : MatchRec) (name : String) : Nat :=
  ((findVal m.participants name).map (fun p => p.deaths)).getD 0

/-- Assists of the player in a match. -/
def pAssists (m : MatchRec) (name : String) : Nat :=
  ((findVal m.participants name).map (fun p => p.assists)).getD 0

/-- PlayerStats._matches_with_champ: champ None or "all" means no filter. -/
def matchesWithChamp (s : PlayerStatsRec) (champ : Option String) : List MatchRec :=
  match champ with
  | none => s._matches
  | some c =>
      if c = "all" then s._matches
      else s._matches.filter (fun m => champOf m s.name == c)

/-- The two return shapes of get_avg_kda: ((0, 0, 0), 0) from the empty guard
and a bare triple otherwise (Python is dynamically typed, so the function
really does return values of two different shapes). -/
inductive KdaResult where
  | pairShape (kda : ℚ × ℚ × ℚ) (extra : ℚ)
  | tripleShape (kda : ℚ × ℚ × ℚ)
deriving DecidableEq

/-- Shallow embedding of PlayerStats.get_avg_kda.  The guard checks
self._matches, not the champion-filtered list; a division by n_matches = 0
(Python ZeroDivisionError) surfaces as Except.error. -/
def getAvgKda (s : PlayerStatsRec) (champ : Option String) : Except String KdaResult :=
  if s._matches.isEmpty then Except.ok (KdaResult.pairShape (0, 0, 0) 0)
  else
    let ms := matchesWithChamp s champ
    if ms.length = 0 then Except.error "ZeroDivisionError"
    else
      Except.ok (KdaResult.tripleShape
        (((ms.map (fun m => (pKills m s.name : ℚ))).sum) / (ms.length : ℚ),
         ((ms.map (fun m => (pDeaths m s.name : ℚ))).sum) / (ms.length : ℚ),
         ((ms.map (fun m => (pAssists m s.name : ℚ))).sum) / (ms.length : ℚ)))

/-! ## Concrete data used by counterexamples and witnesses -/

/-- Equality of get_avg_kda outcomes is decidable (used by concrete
evaluations). -/
instance : DecidableEq (Except String KdaResult) := fun x y =>
  match x, y with
  | Except.error a, Except.error b =>
      if h : a = b then isTrue (congrArg Except.error h)
      else isFalse (fun he => h (Except.error.inj he))
  | Except.error _, Except.ok _ => isFalse (fun he => Except.noConfusion he)
  | Except.ok _, Except.error _ => isFalse (fun he => Except.noConfusion he)
  | Except.ok a, Except.ok b =>
      if h : a = b then isTrue (congrArg Except.ok h)
      else isFalse (fun he => h (Except.ok.inj he))

/-- A participant with the given team and win flag (stats irrelevant). -/
def mkP (tid : Nat) (w : Bool) : Participant := ⟨tid, w, "champ", 0, 0, 0, (0, 0, 0, 0)⟩

/-- A concrete valid 5v5 match: w1..w5 (team 100) beat l1..l5 (team 200). -/
def exMatch : MatchRec :=
  ⟨1, 100,
    [("w1", mkP 100 true), ("w2", mkP 100 true), ("w3", mkP 100 true),
     ("w4", mkP 100 true), ("w5", mkP 100 true),
     ("l1", mkP 200 false), ("l2", mkP 200 false), ("l3", mkP 200 false),
     ("l4", mkP 200 false), ("l5", mkP 200 false)],
    ⟨200, false⟩, ⟨100, true⟩⟩

/-- A malformed record: four players on one team, five on the other. -/
def badMatch : MatchRec :=
  ⟨2, 200,
    [("w1", mkP 100 true), ("w2", mkP 100 true), ("w3", mkP 100 true),
     ("w4", mkP 100 true), ("w5", mkP 100 true),
     ("l1", mkP 200 false), ("l2", mkP 200 false), ("l3", mkP 200 false),
     ("l4", mkP 200 false)],
    ⟨200, false⟩, ⟨100, true⟩⟩

/-- A match in which player p played champion Ahri. -/
def kdaMatch : MatchRec :=
  ⟨3, 300, [("p", ⟨100, true, "Ahri", 5, 2, 7, (1, 0, 0, 0)⟩)], ⟨200, false⟩, ⟨100, true⟩⟩

/-- PlayerStats("p", [kdaMatch]): one match, on champion Ahri. -/
def kdaStats : PlayerStatsRec := mkPlayerStats "p" [kdaMatch]

/-- A concrete TrueSkill snapshot with an equal-mean tie: b has the lower
uncertainty but is inserted after a. -/
def tsSnap : DefaultDict TSRating :=
  ⟨[("a", ⟨25, 8⟩), ("b", ⟨25, 3⟩), ("c", ⟨30, 5⟩)], ⟨25, 8⟩⟩

/-! # Theorems -/

/-! ## Dictionary lemmas -/

section DictLemmas

variable {α : Type}

theorem findVal_append_right {κ : Type} [DecidableEq κ] (l l' : List (κ × α)) (k : κ)
    (h : findVal l k = none) : findVal (l ++ l') k = findVal l' k := by
  induction l with
  | nil => simp
  | cons p rest ih =>
      obtain ⟨k', v⟩ := p
      by_cases hk : k' = k
      · simp [findVal, hk] at h
      · simp only [findVal, hk, if_false, List.cons_append] at h ⊢
        exact ih h

theorem findVal_append_left {κ : Type} [DecidableEq κ] (l l' : List (κ × α)) (k : κ) (v : α)
    (h : findVal l k = some v) : findVal (l ++ l') k = some v := by
  induction l with
  | nil => simp [findVal] at h
  | cons p rest ih =>
      obtain ⟨k', w⟩ := p
      by_cases hk : k' = k
      · simp only [findVal, hk, if_true, List.cons_append] at h ⊢
        exact h
      · simp only [findVal, hk, if_false, List.cons_append] at h ⊢
        exact ih h

theorem findVal_setVal {κ : Type} [DecidableEq κ] (l : List (κ × α)) (k k' : κ) (v : α) :
    findVal (setVal l k v) k' = if k = k' then some v else findVal l k' := by
  induction l with
  | nil =>
      by_cases h : k = k' <;> simp [setVal, findVal, h]
  | cons p rest ih =>
      obtain ⟨k₀, w⟩ := p
      by_cases h0 : k₀ = k
      · subst h0
        by_cases h : k₀ = k' <;> simp [setVal, findVal, h]
      · by_cases h : k₀ = k'
        · subst h
          have hk : ¬ k = k₀ := fun he => h0 he.symm
          simp [setVal, findVal, h0, hk, ih]
        · simp [setVal, findVal, h0, h, ih]

/-- Storing at a key that is absent appends the binding. -/
theorem setVal_of_missing {κ : Type} [DecidableEq κ] (l : List (κ × α)) (k : κ) (v : α)
    (h : findVal l k = none) : setVal l k v = l ++ [(k, v)] := by
  induction l with
  | nil => rfl
  | cons p rest ih =>
      obtain ⟨k₀, w⟩ := p
      by_cases h0 : k₀ = k
      · simp [findVal, h0] at h
      · simp only [findVal, h0, if_false] at h
        simp [setVal, h0, ih h]

/-- Reading a present key returns its stored value. -/
theorem DefaultDict.get_fst_of_found (d : DefaultDict α) (k : String) (v : α)
    (h : findVal d.entries k = some v) : (d.get k).1 = v := by
  simp [DefaultDict.get, h]

/-- Reading a present key leaves the dict untouched. -/
theorem DefaultDict.get_snd_of_found (d : DefaultDict α) (k : String) (v : α)
    (h : findVal d.entries k = some v) : (d.get k).2 = d := by
  simp [DefaultDict.get, h]

/-- What a read returns is exactly the value semantics. -/
theorem DefaultDict.get_fst (d : DefaultDict α) (k : String) :
    (d.get k).1 = d.valueAt k := by
  unfold DefaultDict.get DefaultDict.valueAt
  cases h : findVal d.entries k <;> simp [h]

/-- A read never changes the value semantics of the dict (it only materialises
the default). -/
theorem DefaultDict.valueAt_get_snd (d : DefaultDict α) (k k' : String) :
    ((d.get k).2).valueAt k' = d.valueAt k' := by
  unfold DefaultDict.get DefaultDict.valueAt
  cases h : findVal d.entries k with
  | some v => simp [h]
  | none =>
      simp only [h]
      by_cases hk : k' = k
      · subst hk
        simp [findVal_append_right _ _ _ h, findVal, h]
      · cases h' : findVal d.entries k' with
        | some w => simp [findVal_append_left _ _ _ _ h']
        | none =>
            have : findVal (d.entries ++ [(k, d.dflt)]) k' = none := by
              rw [findVal_append_right _ _ _ h']
              have hne : ¬ k = k' := fun he => hk he.symm
              simp [findVal, hne]
            simp [this, h']

/-- A read preserves the factory value. -/
theorem DefaultDict.dflt_get_snd (d : DefaultDict α) (k : String) :
    ((d.get k).2).dflt = d.dflt := by
  unfold DefaultDict.get
  cases h : findVal d.entries k <;> simp [h]

/-- A read preserves lookups of keys already present. -/
theorem DefaultDict.findVal_get_snd_of_found (d : DefaultDict α) (k k' : String) (v : α)
    (h : findVal d.entries k' = some v) : findVal ((d.get k).2).entries k' = some v := by
  unfold DefaultDict.get
  cases h0 : findVal d.entries k with
  | some w => simpa [h0] using h
  | none => simpa [h0] using findVal_append_left _ _ _ _ h

/-- Value semantics of a write. -/
theorem DefaultDict.valueAt_set (d : DefaultDict α) (k k' : String) (v : α) :
    ((d.set k v).valueAt k') = if k = k' then v else d.valueAt k' := by
  unfold DefaultDict.set DefaultDict.valueAt
  by_cases h : k = k' <;> simp [findVal_setVal, h]

/-- A write preserves the factory value. -/
theorem DefaultDict.dflt_set (d : DefaultDict α) (k : String) (v : α) :
    ((d.set k v)).dflt = d.dflt := rfl

/-- On a dict without the key, the read yields the factory default. -/
theorem DefaultDict.get_fst_of_missing (d : DefaultDict α) (k : String)
    (h : findVal d.entries k = none) : (d.get k).1 = d.dflt := by
  simp [DefaultDict.get, h]

/-- Any key of the dict has a successful lookup. -/
theorem findVal_isSome_of_mem_keys {κ : Type} [DecidableEq κ] (l : List (κ × α)) (k : κ)
    (h : k ∈ l.map (fun p => p.1)) : (findVal l k).isSome := by
  induction l with
  | nil => cases h
  | cons p rest ih =>
      obtain ⟨k₀, v⟩ := p
      by_cases h0 : k₀ = k
      · simp [findVal, h0]
      · rcases List.mem_cons.mp h with he | hm
        · exact absurd he.symm h0
        · simp only [findVal, h0, if_false]
          exact ih hm

/-- The read loop is the identity when every requested name is present. -/
theorem readNames_of_present (ns : List String) :
    ∀ d : DefaultDict α, (∀ n ∈ ns, (findVal d.entries n).isSome) → readNames d ns = d := by
  induction ns with
  | nil => intro d _; rfl
  | cons n rest ih =>
      intro d h
      obtain ⟨v, hv⟩ := Option.isSome_iff_exists.mp (h n (List.mem_cons_self n rest))
      have hstep : readNames d (n :: rest) = readNames (d.get n).2 rest := rfl
      rw [hstep, DefaultDict.get_snd_of_found d n v hv]
      exact ih d (fun x hx => h x (List.mem_cons_of_mem n hx))

/-- The read loop preserves value semantics. -/
theorem readNames_valueAt (ns : List String) :
    ∀ (d : DefaultDict α) (k : String), (readNames d ns).valueAt k = d.valueAt k := by
  induction ns with
  | nil => intro d k; rfl
  | cons n rest ih =>
      intro d k
      have hstep : readNames d (n :: rest) = readNames (d.get n).2 rest := rfl
      rw [hstep, ih, DefaultDict.valueAt_get_snd]

/-- The read loop preserves entries already present. -/
theorem readNames_findVal_of_found (ns : List String) :
    ∀ (d : DefaultDict α) (k : String) (v : α), findVal d.entries k = some v →
      findVal ((readNames d ns)).entries k = some v := by
  induction ns with
  | nil => intro d k v h; exact h
  | cons n rest ih =>
      intro d k v h
      have hstep : readNames d (n :: rest) = readNames (d.get n).2 rest := rfl
      rw [hstep]
      exact ih _ k v (DefaultDict.findVal_get_snd_of_found d n k v h)

end DictLemmas

/-! ## Read/bump loop lemmas -/

section ReadBumpLemmas

theorem readSum_go (names : List String) :
    ∀ (a : ℝ) (d : DefaultDict ℝ),
      (names.foldl (fun p n => (p.1 + (p.2.get n).1, (p.2.get n).2)) (a, d)).1 =
        a + (names.map d.valueAt).sum ∧
      (∀ k, ((names.foldl (fun p n => (p.1 + (p.2.get n).1, (p.2.get n).2)) (a, d)).2).valueAt k =
        d.valueAt k) ∧
      (∀ k v, findVal d.entries k = some v →
        findVal ((names.foldl (fun p n => (p.1 + (p.2.get n).1, (p.2.get n).2)) (a, d)).2).entries k
          = some v) := by
  induction names with
  | nil => intro a d; simp
  | cons n ns ih =>
      intro a d
      have hstep : (List.foldl (fun p n => (p.1 + (p.2.get n).1, (p.2.get n).2)) (a, d) (n :: ns)) =
          List.foldl (fun p n => (p.1 + (p.2.get n).1, (p.2.get n).2))
            (a + (d.get n).1, (d.get n).2) ns := rfl
      obtain ⟨ih1, ih2, ih3⟩ := ih (a + (d.get n).1) ((d.get n).2)
      refine ⟨?_, ?_, ?_⟩
      · rw [hstep, ih1, DefaultDict.get_fst]
        have hmap : ns.map ((d.get n).2).valueAt = ns.map d.valueAt :=
          List.map_congr_left (fun x _ => DefaultDict.valueAt_get_snd d n x)
        rw [hmap]
        simp [add_assoc]
      · intro k
        rw [hstep, ih2 k, DefaultDict.valueAt_get_snd]
      · intro k v hv
        rw [hstep]
        exact ih3 k v (DefaultDict.findVal_get_snd_of_found d n k v hv)

theorem readSum_fst (d : DefaultDict ℝ) (names : List String) :
    (readSum d names).1 = (names.map d.valueAt).sum := by
  have h := (readSum_go names 0 d).1
  simpa [readSum] using h

theorem readSum_valueAt (d : DefaultDict ℝ) (names : List String) (k : String) :
    ((readSum d names).2).valueAt k = d.valueAt k :=
  (readSum_go names 0 d).2.1 k

theorem readSum_findVal (d : DefaultDict ℝ) (names : List String) (k : String) (v : ℝ)
    (h : findVal d.entries k = some v) :
    findVal ((readSum d names).2).entries k = some v :=
  (readSum_go names 0 d).2.2 k v h

/-- Value semantics of one iteration of the update loop. -/
theorem bump_step_valueAt (d : DefaultDict ℝ) (n : String) (delta : ℝ) (k : String) :
    (((d.get n).2).set n ((d.get n).1 + delta)).valueAt k =
      if n = k then d.valueAt n + delta else d.valueAt k := by
  rw [DefaultDict.valueAt_set, DefaultDict.get_fst]
  by_cases h : n = k <;> simp [h, DefaultDict.valueAt_get_snd]

theorem bumpAll_valueAt_not_mem (names : List String) :
    ∀ (d : DefaultDict ℝ) (delta : ℝ) (k : String), k ∉ names →
      (bumpAll d names delta).valueAt k = d.valueAt k := by
  induction names with
  | nil => intro d delta k _; rfl
  | cons n ns ih =>
      intro d delta k hk
      have hkn : n ≠ k := fun h => hk (h ▸ List.mem_cons_self n ns)
      have hkns : k ∉ ns := fun h => hk (List.mem_cons_of_mem n h)
      have hstep : bumpAll d (n :: ns) delta =
          bumpAll (((d.get n).2).set n ((d.get n).1 + delta)) ns delta := rfl
      rw [hstep, ih _ delta k hkns, bump_step_valueAt, if_neg hkn]

theorem bumpAll_valueAt_mem (names : List String) :
    ∀ (d : DefaultDict ℝ) (delta : ℝ) (k : String), names.Nodup → k ∈ names →
      (bumpAll d names delta).valueAt k = d.valueAt k + delta := by
  induction names with
  | nil => intro d delta k _ hk; cases hk
  | cons n ns ih =>
      intro d delta k hnd hk
      have hstep : bumpAll d (n :: ns) delta =
          bumpAll (((d.get n).2).set n ((d.get n).1 + delta)) ns delta := rfl
      have hnns : n ∉ ns := (List.nodup_cons.mp hnd).1
      rcases List.mem_cons.mp hk with hkn | hkns
      · subst hkn
        rw [hstep, bumpAll_valueAt_not_mem ns _ delta k hnns, bump_step_valueAt, if_pos rfl]
      · have hkn : n ≠ k := fun h => hnns (h ▸ hkns)
        rw [hstep, ih _ delta k (List.nodup_cons.mp hnd).2 hkns, bump_step_valueAt, if_neg hkn]

theorem bumpAll_congr (names : List String) :
    ∀ (d d' : DefaultDict ℝ) (delta : ℝ),
      (∀ j, d.valueAt j = d'.valueAt j) →
      ∀ j, (bumpAll d names delta).valueAt j = (bumpAll d' names delta).valueAt j := by
  induction names with
  | nil => intro d d' delta h j; exact h j
  | cons n ns ih =>
      intro d d' delta h j
      have hstep : bumpAll d (n :: ns) delta =
          bumpAll (((d.get n).2).set n ((d.get n).1 + delta)) ns delta := rfl
      have hstep' : bumpAll d' (n :: ns) delta =
          bumpAll (((d'.get n).2).set n ((d'.get n).1 + delta)) ns delta := rfl
      rw [hstep, hstep']
      refine ih _ _ delta (fun j' => ?_) j
      rw [bump_step_valueAt, bump_step_valueAt, h n, h j']

end ReadBumpLemmas

/-! ## Elo update lemmas -/

section EloLemmas

/-- The means actually computed inside eloGetNewRatings are the snapshot means. -/
theorem eloGetNewRatings_eq (sys : EloSystem) (winners losers : List String)
    (d : DefaultDict ℝ) :
    eloGetNewRatings sys winners losers d =
      ((readSum (readSum d winners).2 losers).2,
        bumpAll (bumpAll d winners (sys.k * winnerDelta (ddMean d winners) (ddMean d losers)))
          losers (-(sys.k * winnerDelta (ddMean d winners) (ddMean d losers)))) := by
  unfold eloGetNewRatings ddMean
  have h1 : (readSum d winners).1 = (winners.map d.valueAt).sum := readSum_fst d winners
  have h2 : (readSum (readSum d winners).2 losers).1 = (losers.map d.valueAt).sum := by
    rw [readSum_fst]
    exact congrArg List.sum
      (List.map_congr_left (fun x _ => readSum_valueAt d winners x))
  dsimp only
  rw [h1, h2]

/-- The caller's dict after the call has unchanged value semantics (the reads
only materialise defaults). -/
theorem elo_input_valueAt (sys : EloSystem) (winners losers : List String)
    (d : DefaultDict ℝ) (k : String) :
    ((eloGetNewRatings sys winners losers d).1).valueAt k = d.valueAt k := by
  rw [eloGetNewRatings_eq]
  simp only
  rw [readSum_valueAt, readSum_valueAt]

/-- Entries present before the call are untouched in the caller's dict. -/
theorem elo_input_findVal (sys : EloSystem) (winners losers : List String)
    (d : DefaultDict ℝ) (k : String) (v : ℝ) (h : findVal d.entries k = some v) :
    findVal ((eloGetNewRatings sys winners losers d).1).entries k = some v := by
  rw [eloGetNewRatings_eq]
  simp only
  exact readSum_findVal _ losers k v (readSum_findVal d winners k v h)

/-- Value of a winner in the returned dict. -/
theorem elo_result_winner (sys : EloSystem) (winners losers : List String)
    (d : DefaultDict ℝ) (w : String) (hwn : winners.Nodup) (hw : w ∈ winners)
    (hwl : w ∉ losers) :
    ((eloGetNewRatings sys winners losers d).2).valueAt w =
      d.valueAt w + sys.k * winnerDelta (ddMean d winners) (ddMean d losers) := by
  rw [eloGetNewRatings_eq]
  simp only
  rw [bumpAll_valueAt_not_mem losers _ _ w hwl, bumpAll_valueAt_mem winners d _ w hwn hw]

/-- Value of a loser in the returned dict. -/
theorem elo_result_loser (sys : EloSystem) (winners losers : List String)
    (d : DefaultDict ℝ) (l : String) (hln : losers.Nodup) (hl : l ∈ losers)
    (hlw : l ∉ winners) :
    ((eloGetNewRatings sys winners losers d).2).valueAt l =
      d.valueAt l - sys.k * winnerDelta (ddMean d winners) (ddMean d losers) := by
  rw [eloGetNewRatings_eq]
  simp only
  rw [bumpAll_valueAt_mem losers _ _ l hln hl, bumpAll_valueAt_not_mem winners d _ l hlw]
  ring

/-- Players on neither roster keep their rating. -/
theorem elo_result_frame (sys : EloSystem) (winners losers : List String)
    (d : DefaultDict ℝ) (k : String) (hw : k ∉ winners) (hl : k ∉ losers) :
    ((eloGetNewRatings sys winners losers d).2).valueAt k = d.valueAt k := by
  rw [eloGetNewRatings_eq]
  simp only
  rw [bumpAll_valueAt_not_mem losers _ _ k hl, bumpAll_valueAt_not_mem winners d _ k hw]

/-- The returned dict depends on the input dict only through its value
semantics. -/
theorem elo_result_congr (sys : EloSystem) (winners losers : List String)
    (d d' : DefaultDict ℝ) (h : ∀ j, d.valueAt j = d'.valueAt j) (k : String) :
    ((eloGetNewRatings sys winners losers d).2).valueAt k =
      ((eloGetNewRatings sys winners losers d').2).valueAt k := by
  rw [eloGetNewRatings_eq, eloGetNewRatings_eq]
  simp only
  have hmw : winners.map d.valueAt = winners.map d'.valueAt :=
    List.map_congr_left (fun x _ => h x)
  have hml : losers.map d.valueAt = losers.map d'.valueAt :=
    List.map_congr_left (fun x _ => h x)
  have hmean : ddMean d winners = ddMean d' winners ∧ ddMean d losers = ddMean d' losers := by
    constructor <;> unfold ddMean
    · rw [hmw]
    · rw [hml]
  rw [hmean.1, hmean.2]
  exact bumpAll_congr losers _ _ _
    (fun j => bumpAll_congr winners d d' _ h j) k

theorem eloMatchUpd_mut (sys : EloSystem) (m : MatchRec) (d : DefaultDict ℝ) (k : String) :
    ((eloMatchUpd sys m d).1).valueAt k = d.valueAt k :=
  elo_input_valueAt sys (winnersOf m) (losersOf m) d k

theorem eloMatchUpd_congr (sys : EloSystem) (m : MatchRec) (d d' : DefaultDict ℝ)
    (h : ∀ j, d.valueAt j = d'.valueAt j) (k : String) :
    ((eloMatchUpd sys m d).2).valueAt k = ((eloMatchUpd sys m d').2).valueAt k :=
  elo_result_congr sys (winnersOf m) (losersOf m) d d' h k

theorem mem_winnersOf_namesOf (m : MatchRec) (k : String) (h : k ∈ winnersOf m) :
    k ∈ namesOf m := by
  unfold winnersOf at h
  unfold namesOf
  obtain ⟨p, hp, rfl⟩ := List.mem_map.mp h
  exact List.mem_map.mpr ⟨p, List.mem_of_mem_filter hp, rfl⟩

theorem mem_losersOf_namesOf (m : MatchRec) (k : String) (h : k ∈ losersOf m) :
    k ∈ namesOf m := by
  unfold losersOf at h
  unfold namesOf
  obtain ⟨p, hp, rfl⟩ := List.mem_map.mp h
  exact List.mem_map.mpr ⟨p, List.mem_of_mem_filter hp, rfl⟩

theorem eloMatchUpd_frame (sys : EloSystem) (m : MatchRec) (d : DefaultDict ℝ) (k : String)
    (h : k ∉ namesOf m) :
    ((eloMatchUpd sys m d).2).valueAt k = d.valueAt k :=
  elo_result_frame sys (winnersOf m) (losersOf m) d k
    (fun hw => h (mem_winnersOf_namesOf m k hw))
    (fun hl => h (mem_losersOf_namesOf m k hl))

end EloLemmas

/-! ## History builder structural lemmas -/

section HistoryLemmas

variable {α : Type}
variable (upd : MatchRec → DefaultDict α → DefaultDict α × DefaultDict α)

theorem replayFold_eq :
    ∀ (r : List MatchRec) (acc : List (DefaultDict α)) (d : DefaultDict α),
      r.foldl (fun p m => (p.1 ++ [(upd m p.2).1], (upd m p.2).2)) (acc, d) =
        (acc ++ (replaySnaps upd d r).1, (replaySnaps upd d r).2) := by
  intro r
  induction r with
  | nil => intro acc d; simp [replaySnaps]
  | cons m r ih =>
      intro acc d
      rw [List.foldl_cons]
      rw [ih (acc ++ [(upd m d).1]) ((upd m d).2)]
      simp [replaySnaps]

theorem calcRatingHistory_eq (start : DefaultDict α) (ms : List MatchRec) :
    calcRatingHistory upd start ms =
      (replaySnaps upd start ms.reverse).2 :: (replaySnaps upd start ms.reverse).1.reverse := by
  unfold calcRatingHistory
  rw [replayFold_eq upd ms.reverse [] start]
  simp

theorem replaySnaps_snoc (r : List MatchRec) :
    ∀ (d : DefaultDict α) (m : MatchRec),
      replaySnaps upd d (r ++ [m]) =
        ((replaySnaps upd d r).1 ++ [(upd m (replaySnaps upd d r).2).1],
          (upd m (replaySnaps upd d r).2).2) := by
  induction r with
  | nil => intro d m; simp [replaySnaps]
  | cons m0 r ih =>
      intro d m
      simp only [List.cons_append, replaySnaps, List.append_eq]
      rw [ih]

theorem replaySnaps_fst_length (r : List MatchRec) :
    ∀ d : DefaultDict α, (replaySnaps upd d r).1.length = r.length := by
  induction r with
  | nil => intro d; rfl
  | cons m r ih => intro d; simp [replaySnaps, ih]

theorem calcRatingHistory_length (start : DefaultDict α) (ms : List MatchRec) :
    (calcRatingHistory upd start ms).length = ms.length + 1 := by
  rw [calcRatingHistory_eq]
  simp [replaySnaps_fst_length]

theorem calcRatingHistory_nil (start : DefaultDict α) :
    calcRatingHistory upd start [] = [start] := by
  rw [calcRatingHistory_eq]
  simp [replaySnaps]

theorem calcRatingHistory_cons (start : DefaultDict α) (m : MatchRec) (ms : List MatchRec) :
    calcRatingHistory upd start (m :: ms) =
      (upd m (replaySnaps upd start ms.reverse).2).2 ::
        (upd m (replaySnaps upd start ms.reverse).2).1 ::
        (replaySnaps upd start ms.reverse).1.reverse := by
  rw [calcRatingHistory_eq]
  have hrev : (m :: ms).reverse = ms.reverse ++ [m] := by simp
  rw [hrev, replaySnaps_snoc]
  simp

/-- Frame of the pure replay: a player in none of the replayed matches keeps
the start value. -/
theorem replayPure_frame
    (hfr : ∀ m d k, k ∉ namesOf m → ((upd m d).2).valueAt k = d.valueAt k)
    (d : DefaultDict α) :
    ∀ (l : List MatchRec) (k : String), (∀ m ∈ l, k ∉ namesOf m) →
      (replayPure upd d l).valueAt k = d.valueAt k := by
  intro l
  induction l with
  | nil => intro k _; rfl
  | cons m l ih =>
      intro k h
      have hstep : replayPure upd d (m :: l) = (upd m (replayPure upd d l)).2 := rfl
      rw [hstep, hfr m _ k (h m (List.mem_cons_self m l)),
        ih k (fun m' hm' => h m' (List.mem_cons_of_mem m hm'))]

/-- The central indexing lemma: snapshot i of the history has the value
semantics of replaying exactly the matches below index i of the newest-first
list (that is, all chronologically earlier matches). -/
theorem calc_valueAt_drop
    (hmut : ∀ m (d : DefaultDict α) k, ((upd m d).1).valueAt k = d.valueAt k)
    (hext : ∀ m (d d' : DefaultDict α), (∀ j, d.valueAt j = d'.valueAt j) →
      ∀ j, ((upd m d).2).valueAt j = ((upd m d').2).valueAt j)
    (start : DefaultDict α) :
    ∀ (ms : List MatchRec) (i : Nat), i ≤ ms.length → ∀ (junk : DefaultDict α) (k : String),
      ((calcRatingHistory upd start ms).getD i junk).valueAt k =
        (replayPure upd start (ms.drop i)).valueAt k := by
  intro ms
  induction ms with
  | nil =>
      intro i hi junk k
      have h0 : i = 0 := Nat.le_zero.mp hi
      subst h0
      rw [calcRatingHistory_nil]
      simp [replayPure]
  | cons m ms ih =>
      intro i hi junk k
      have h0 : ∀ (junk : DefaultDict α) (k' : String),
          ((replaySnaps upd start ms.reverse).2).valueAt k' =
            (replayPure upd start ms).valueAt k' := by
        intro junk' k'
        have h := ih 0 (Nat.zero_le _) junk' k'
        rw [calcRatingHistory_eq] at h
        simpa using h
      rw [calcRatingHistory_cons]
      match i with
      | 0 =>
          simp only [List.getD_cons_zero, List.drop_zero]
          have hrp : replayPure upd start (m :: ms) =
              (upd m (replayPure upd start ms)).2 := rfl
          rw [hrp]
          exact hext m _ _ (h0 junk) k
      | 1 =>
          simp only [List.getD_cons_succ, List.getD_cons_zero]
          rw [hmut]
          have hdrop : (m :: ms).drop 1 = ms := rfl
          rw [hdrop]
          exact h0 junk k
      | (j+2) =>
          simp only [List.getD_cons_succ]
          have hj : j + 1 ≤ ms.length := by
            simp only [List.length_cons] at hi
            omega
          have h := ih (j+1) hj junk k
          rw [calcRatingHistory_eq] at h
          simp only [List.getD_cons_succ] at h
          have hdrop : (m :: ms).drop (j+2) = ms.drop (j+1) := rfl
          rw [hdrop]
          exact h

end HistoryLemmas

/-! ## Ingestion lemmas -/

section IngestLemmas

theorem ingest_go :
    ∀ (records : List MatchRec) (acc : List (Nat × MatchRec)),
      (records.map MatchRec.id).Nodup →
      (∀ m ∈ records, findVal acc m.id = none) →
      ((records.foldl (fun acc m => if acceptMatch m then setVal acc m.id m else acc) acc).map
        (fun p => p.2)) = acc.map (fun p => p.2) ++ records.filter (fun m => acceptMatch m) := by
  intro records
  induction records with
  | nil => intro acc _ _; simp
  | cons m rest ih =>
      intro acc hnd hmiss
      have hid : m.id ∉ rest.map MatchRec.id := (List.nodup_cons.mp hnd).1
      have hnd' : (rest.map MatchRec.id).Nodup := (List.nodup_cons.mp hnd).2
      rw [List.foldl_cons]
      by_cases ha : acceptMatch m
      · rw [if_pos ha]
        have hmm : findVal acc m.id = none := hmiss m (List.mem_cons_self m rest)
        rw [setVal_of_missing acc m.id m hmm]
        have hmiss' : ∀ m' ∈ rest, findVal (acc ++ [(m.id, m)]) m'.id = none := by
          intro m' hm'
          rw [findVal_append_right _ _ _ (hmiss m' (List.mem_cons_of_mem m hm'))]
          have hne : m.id ≠ m'.id :=
            fun he => hid (he ▸ List.mem_map_of_mem MatchRec.id hm')
          simp [findVal, hne]
        rw [ih (acc ++ [(m.id, m)]) hnd' hmiss']
        simp [ha, List.filter_cons]
      · rw [if_neg ha]
        rw [ih acc hnd' (fun m' hm' => hmiss m' (List.mem_cons_of_mem m hm'))]
        simp [ha, List.filter_cons]

theorem ingest_eq_filter (records : List MatchRec)
    (h : (records.map MatchRec.id).Nodup) :
    ingest records = records.filter (fun m => acceptMatch m) := by
  unfold ingest
  have hgo := ingest_go records [] h (fun m _ => rfl)
  simpa using hgo

theorem ingest_cons_reject (bad : MatchRec) (rest : List MatchRec)
    (h : ¬ acceptMatch bad) :
    ingest (bad :: rest) = ingest rest := by
  unfold ingest
  rw [List.foldl_cons, if_neg h]

theorem acceptMatch_iff (m : MatchRec) :
    acceptMatch m = true ↔
      ((teamMembersOf m (sortedTeams m).1).length = 5 ∧
        (teamMembersOf m (sortedTeams m).2).length = 5 ∧
        ((sortedTeams m).1.win.toNat + (sortedTeams m).2.win.toNat = 1)) := by
  unfold acceptMatch
  dsimp only
  simp only [Bool.and_eq_true, beq_iff_eq]
  constructor
  · rintro ⟨⟨h1, h2⟩, h3⟩
    exact ⟨h1.trans h2, h2, h3⟩
  · rintro ⟨h1, h2, h3⟩
    exact ⟨⟨h1.trans h2.symm, h2⟩, h3⟩

end IngestLemmas

/-! ## Stable sort and leaderboard lemmas -/

section SortLemmas

variable {β K : Type} [LinearOrder K]

theorem sortDesc_perm (key : β → K) (l : List β) : List.Perm (sortDesc key l) l :=
  List.perm_insertionSort _ l

theorem sortDesc_sorted (key : β → K) (l : List β) :
    List.Sorted (fun a b => key b ≤ key a) (sortDesc key l) := by
  haveI : IsTotal β (fun a b => key b ≤ key a) := ⟨fun a b => le_total (key b) (key a)⟩
  haveI : IsTrans β (fun a b => key b ≤ key a) := ⟨fun a b c hab hbc => le_trans hbc hab⟩
  exact List.sorted_insertionSort _ l

theorem filter_keyEq_orderedInsert (key : β → K) (v : K) (x : β) (l : List β) :
    (List.orderedInsert (fun a b => key b ≤ key a) x l).filter
        (fun y => decide (key y = v)) =
      if key x = v then x :: l.filter (fun y => decide (key y = v))
      else l.filter (fun y => decide (key y = v)) := by
  induction l with
  | nil =>
      by_cases h : key x = v <;> simp [List.orderedInsert, h]
  | cons y ys ih =>
      rw [List.orderedInsert]
      by_cases hr : key y ≤ key x
      · rw [if_pos hr]
        by_cases h : key x = v
        · simp [List.filter_cons, h]
        · simp [List.filter_cons, h]
      · rw [if_neg hr]
        have hlt : key x < key y := not_le.mp hr
        by_cases h : key x = v
        · have hy : ¬ (key y = v) := by
            intro hyv
            have heq : key y = key x := hyv.trans h.symm
            rw [heq] at hlt
            exact lt_irrefl _ hlt
          simp [List.filter_cons, hy, ih, h]
        · simp [List.filter_cons, ih, h]

/-- Stability of the descending sort: the subsequence of any fixed key value is
unchanged. -/
theorem sortDesc_stable (key : β → K) (v : K) (l : List β) :
    (sortDesc key l).filter (fun y => decide (key y = v)) =
      l.filter (fun y => decide (key y = v)) := by
  induction l with
  | nil => rfl
  | cons x xs ih =>
      have hstep : sortDesc key (x :: xs) =
          List.orderedInsert (fun a b => key b ≤ key a) x (sortDesc key xs) := rfl
      rw [hstep, filter_keyEq_orderedInsert, ih]
      by_cases h : key x = v <;> simp [List.filter_cons, h]

theorem get_leaderboard_none_snd {α : Type} (d : DefaultDict α) (key : α → K) :
    (get_leaderboard d none key).2 = d := by
  unfold get_leaderboard
  dsimp only
  exact readNames_of_present _ d (fun n hn => findVal_isSome_of_mem_keys d.entries n hn)

theorem get_leaderboard_fst {α : Type} (d : DefaultDict α) (names : Option (List String))
    (key : α → K) :
    (get_leaderboard d names key).1 =
      sortDesc (fun p => key p.2) ((get_leaderboard d names key).2).entries := rfl

end SortLemmas

/-! ## Claim theorems -/

/-- Claim C5: for every match list the rating history built by
calculate_rating_history contains exactly len(matches) + 1 snapshots, for any
rating system update; likewise the full pipeline history over its ingested,
sorted working set. -/
theorem C5_history_length {α : Type}
    (upd : MatchRec → DefaultDict α → DefaultDict α × DefaultDict α)
    (start : DefaultDict α) (ms : List MatchRec) (records : List MatchRec) :
    (calcRatingHistory upd start ms).length = ms.length + 1 ∧
    (lqHistory upd start records).length = (lqMatches records).length + 1 :=
  ⟨calcRatingHistory_length upd start ms, calcRatingHistory_length upd start _⟩

/-- Claim C9: the per-player update magnitude k * (1 - E) is strictly
decreasing in the winner-minus-loser mean-rating gap; in particular a win by
an already higher-rated roster moves ratings strictly less than an upset win. -/
theorem C9_upset_magnitude (k rw1 rl1 rw2 rl2 : ℝ) (hk : 0 < k)
    (hgap : rw2 - rl2 < rw1 - rl1) :
    k * winnerDelta rw1 rl1 < k * winnerDelta rw2 rl2 := by
  have hbase : (1 : ℝ) < 10 := by norm_num
  have hexp : (rl1 - rw1) / 400 < (rl2 - rw2) / 400 := by linarith
  have hpow : (10 : ℝ) ^ ((rl1 - rw1) / 400) < (10 : ℝ) ^ ((rl2 - rw2) / 400) :=
    (Real.rpow_lt_rpow_left_iff hbase).mpr hexp
  have hpos1 : (0 : ℝ) < 1 + (10 : ℝ) ^ ((rl1 - rw1) / 400) := by
    have := Real.rpow_pos_of_pos (by norm_num : (0:ℝ) < 10) ((rl1 - rw1) / 400)
    linarith
  have hfrac : 1 / (1 + (10 : ℝ) ^ ((rl2 - rw2) / 400)) <
      1 / (1 + (10 : ℝ) ^ ((rl1 - rw1) / 400)) := by
    apply one_div_lt_one_div_of_lt hpos1
    linarith
  have hwd : winnerDelta rw1 rl1 < winnerDelta rw2 rl2 := by
    unfold winnerDelta
    linarith
  exact mul_lt_mul_of_pos_left hwd hk

/-- Witness for C9: k = 32, an expected win (gap +100) against an upset win
(gap -100). -/
theorem C9_upset_magnitude_witness :
    (0:ℝ) < 32 ∧ ((1500:ℝ) - 1600 < 1600 - 1500) ∧
      32 * winnerDelta 1600 1500 < 32 * winnerDelta 1500 1600 :=
  ⟨by norm_num, by norm_num,
    C9_upset_magnitude 32 1600 1500 1500 1600 (by norm_num) (by norm_num)⟩

/-- Claim C2: in a PairwiseDelta update every winner gains and every loser
loses exactly k * (1 - E), where E is the logistic expected score computed
from the two rosters' mean pre-match ratings; the default configuration is
start = 1500, k = 32.  The disjointness and no-duplicate hypotheses hold for
rosters built from a participants dict; empty rosters would raise
ZeroDivisionError in the source. -/
theorem C2_elo_update (sys : EloSystem) (winners losers : List String)
    (d : DefaultDict ℝ)
    (hwne : winners ≠ []) (hlne : losers ≠ [])
    (hwn : winners.Nodup) (hln : losers.Nodup)
    (hdisj : ∀ n ∈ winners, n ∉ losers) :
    (∀ w ∈ winners,
      ((eloGetNewRatings sys winners losers d).2).valueAt w =
        d.valueAt w +
          sys.k * (1 - 1 / (1 + (10:ℝ) ^ ((ddMean d losers - ddMean d winners) / 400)))) ∧
    (∀ l ∈ losers,
      ((eloGetNewRatings sys winners losers d).2).valueAt l =
        d.valueAt l -
          sys.k * (1 - 1 / (1 + (10:ℝ) ^ ((ddMean d losers - ddMean d winners) / 400)))) ∧
    defaultEloSystem.start_elo = 1500 ∧ defaultEloSystem.k = 32 := by
  refine ⟨?_, ?_, rfl, rfl⟩
  · intro w hw
    have h := elo_result_winner sys winners losers d w hwn hw (hdisj w hw)
    simpa [winnerDelta] using h
  · intro l hl
    have hlw : l ∉ winners := fun hmem => hdisj l hmem hl
    have h := elo_result_loser sys winners losers d l hln hl hlw
    simpa [winnerDelta] using h

/-- Witness for C2: a 1v1 between two fresh players at the 1500 default with
k = 32 gives the winner exactly 1516. -/
theorem C2_elo_update_witness :
    ((eloGetNewRatings defaultEloSystem ["a"] ["b"] (emptyDD 1500)).2).valueAt "a" = 1516 := by
  have h := (C2_elo_update defaultEloSystem ["a"] ["b"] (emptyDD 1500)
    (by simp) (by simp) (by simp) (by simp) (by decide)).1 "a" (by simp)
  rw [h]
  have hva : ∀ n, (emptyDD (1500:ℝ)).valueAt n = 1500 := fun n => rfl
  have hm1 : ddMean (emptyDD 1500) ["a"] = 1500 := by
    unfold ddMean
    simp [hva]
  have hm2 : ddMean (emptyDD 1500) ["b"] = 1500 := by
    unfold ddMean
    simp [hva]
  rw [hva "a", hm1, hm2]
  have hz : ((1500:ℝ) - 1500) / 400 = 0 := by norm_num
  rw [hz, Real.rpow_zero]
  norm_num [defaultEloSystem]

/-- Claim C8: within an equal-size match the winner-side delta sum and the
loser-side delta sum cancel (each side's total is roster-size times
k * (1 - E), with opposite signs). -/
theorem C8_zero_sum (sys : EloSystem) (winners losers : List String) (d : DefaultDict ℝ)
    (hwn : winners.Nodup) (hln : losers.Nodup)
    (hdisj : ∀ n ∈ winners, n ∉ losers)
    (hlen : winners.length = losers.length) (hne : winners ≠ []) :
    (winners.map (fun n =>
        ((eloGetNewRatings sys winners losers d).2).valueAt n - d.valueAt n)).sum
      + (losers.map (fun n =>
        ((eloGetNewRatings sys winners losers d).2).valueAt n - d.valueAt n)).sum = 0 := by
  have hws : (winners.map (fun n =>
      ((eloGetNewRatings sys winners losers d).2).valueAt n - d.valueAt n)).sum =
      (winners.length : ℝ) * (sys.k * winnerDelta (ddMean d winners) (ddMean d losers)) := by
    have hmap : winners.map (fun n =>
        ((eloGetNewRatings sys winners losers d).2).valueAt n - d.valueAt n) =
        winners.map (fun _ => sys.k * winnerDelta (ddMean d winners) (ddMean d losers)) :=
      List.map_congr_left (fun w hw => by
        rw [elo_result_winner sys winners losers d w hwn hw (hdisj w hw)]
        ring)
    rw [hmap]
    simp [List.map_const', mul_comm]
  have hls : (losers.map (fun n =>
      ((eloGetNewRatings sys winners losers d).2).valueAt n - d.valueAt n)).sum =
      (losers.length : ℝ) * (-(sys.k * winnerDelta (ddMean d winners) (ddMean d losers))) := by
    have hmap : losers.map (fun n =>
        ((eloGetNewRatings sys winners losers d).2).valueAt n - d.valueAt n) =
        losers.map (fun _ => -(sys.k * winnerDelta (ddMean d winners) (ddMean d losers))) :=
      List.map_congr_left (fun l hl => by
        rw [elo_result_loser sys winners losers d l hln hl (fun hmem => hdisj l hmem hl)]
        ring)
    rw [hmap]
    simp [List.map_const', mul_comm]
  rw [hws, hls, hlen]
  ring

/-- Witness for C8: the 1v1 at the default rating sums to zero. -/
theorem C8_zero_sum_witness :
    ((["a"] : List String).map (fun n =>
        ((eloGetNewRatings defaultEloSystem ["a"] ["b"] (emptyDD 1500)).2).valueAt n -
          (emptyDD (1500:ℝ)).valueAt n)).sum
      + ((["b"] : List String).map (fun n =>
        ((eloGetNewRatings defaultEloSystem ["a"] ["b"] (emptyDD 1500)).2).valueAt n -
          (emptyDD (1500:ℝ)).valueAt n)).sum = 0 :=
  C8_zero_sum defaultEloSystem ["a"] ["b"] (emptyDD 1500)
    (by simp) (by simp) (by decide) (by simp) (by simp)

/-- Claim C4: with distinct game ids, ingestion keeps exactly the records
passing the roster guard; a record is rejected precisely when a team size
differs from 5 or the team win-flag count is not 1; and a rejected record
contributes nothing to the rating history built from the working set (hence
to no snapshot and no leaderboard read from it). -/
theorem C4_reject {α : Type}
    (upd : MatchRec → DefaultDict α → DefaultDict α × DefaultDict α)
    (start : DefaultDict α) (records : List MatchRec) (bad : MatchRec)
    (rest : List MatchRec)
    (hids : (records.map MatchRec.id).Nodup)
    (hbad : ¬ ((teamMembersOf bad (sortedTeams bad).1).length = 5 ∧
        (teamMembersOf bad (sortedTeams bad).2).length = 5 ∧
        ((sortedTeams bad).1.win.toNat + (sortedTeams bad).2.win.toNat = 1))) :
    ingest records = records.filter (fun m => acceptMatch m) ∧
    (∀ m : MatchRec, acceptMatch m = false ↔
      ¬ ((teamMembersOf m (sortedTeams m).1).length = 5 ∧
        (teamMembersOf m (sortedTeams m).2).length = 5 ∧
        ((sortedTeams m).1.win.toNat + (sortedTeams m).2.win.toNat = 1))) ∧
    lqHistory upd start (bad :: rest) = lqHistory upd start rest := by
  refine ⟨ingest_eq_filter records hids, ?_, ?_⟩
  · intro m
    have hb : acceptMatch m = false ↔ ¬ (acceptMatch m = true) := by
      cases h : acceptMatch m <;> simp
    rw [hb, acceptMatch_iff]
  · have hb : ¬ (acceptMatch bad = true) := fun h => hbad ((acceptMatch_iff bad).mp h)
    unfold lqHistory lqMatches
    rw [ingest_cons_reject bad rest hb]

/-- Witness for C4: a 4-versus-5 record is rejected and leaves the history of
the remaining records unchanged. -/
theorem C4_reject_witness :
    ingest [exMatch, badMatch] = [exMatch] ∧
    acceptMatch badMatch = false ∧
    lqHistory (eloMatchUpd defaultEloSystem) (emptyDD 1500) (badMatch :: [exMatch]) =
      lqHistory (eloMatchUpd defaultEloSystem) (emptyDD 1500) [exMatch] := by
  have h := C4_reject (eloMatchUpd defaultEloSystem) (emptyDD 1500)
    [exMatch, badMatch] badMatch [exMatch] (by decide) (by decide)
  refine ⟨?_, ?_, h.2.2⟩
  · rw [h.1]
    decide
  · exact (h.2.1 badMatch).mpr (by decide)

/-- Claim C3: a defaultdict read of an absent key yields the factory default
instead of failing, and in the history builder any player appearing in none of
the matches chronologically before snapshot i still has the default rating at
snapshot i — so a player first appearing in a later match enters that match's
update at the default.  The hypotheses on upd (frame, read-only mutation,
value-extensionality) are those proved for the Elo instantiation below. -/
theorem C3_lazy_default {α : Type}
    (upd : MatchRec → DefaultDict α → DefaultDict α × DefaultDict α)
    (dflt : α) (ms : List MatchRec) (i : Nat) (k : String)
    (hfr : ∀ m (d : DefaultDict α) k, k ∉ namesOf m → ((upd m d).2).valueAt k = d.valueAt k)
    (hmut : ∀ m (d : DefaultDict α) k, ((upd m d).1).valueAt k = d.valueAt k)
    (hext : ∀ m (d d' : DefaultDict α), (∀ j, d.valueAt j = d'.valueAt j) →
      ∀ j, ((upd m d).2).valueAt j = ((upd m d').2).valueAt j)
    (hi : i ≤ ms.length)
    (hk : ∀ m ∈ ms.drop i, k ∉ namesOf m) :
    ((calcRatingHistory upd (emptyDD dflt) ms).getD i (emptyDD dflt)).valueAt k = dflt ∧
    (∀ (d : DefaultDict α) (j : String), findVal d.entries j = none → (d.get j).1 = d.dflt) := by
  refine ⟨?_, fun d j h => DefaultDict.get_fst_of_missing d j h⟩
  rw [calc_valueAt_drop upd hmut hext (emptyDD dflt) ms i hi (emptyDD dflt) k]
  rw [replayPure_frame upd hfr (emptyDD dflt) (ms.drop i) k hk]
  rfl

/-- Witness for C3: a player absent from the only match keeps the 1500 default
in the newest snapshot. -/
theorem C3_lazy_default_witness :
    ((calcRatingHistory (eloMatchUpd defaultEloSystem) (emptyDD 1500) [exMatch]).getD 0
        (emptyDD 1500)).valueAt "z" = 1500 :=
  (C3_lazy_default (eloMatchUpd defaultEloSystem) 1500 [exMatch] 0 "z"
    (fun m d k hk => eloMatchUpd_frame defaultEloSystem m d k hk)
    (fun m d k => eloMatchUpd_mut defaultEloSystem m d k)
    (fun m d d' h j => eloMatchUpd_congr defaultEloSystem m d d' h j)
    (by simp) (by decide)).1

/-- Claim C1 counterexample: for the valid one-match set [exMatch] the claim
makes history[0] the snapshot before the (only, hence chronologically
earliest) match, in which every rating is still the 1500 default; the history
builder instead stores the post-match snapshot at index 0, where winner w1
already has 1516 = 1500 + 32 * (1 - 1/2). -/
theorem C1_counterexample :
    acceptMatch exMatch = true ∧
    ((calcRatingHistory (eloMatchUpd defaultEloSystem) (emptyDD 1500) [exMatch]).getD 0
        (emptyDD 1500)).valueAt "w1" = 1516 ∧ (1516 : ℝ) ≠ 1500 := by
  refine ⟨by decide, ?_, by norm_num⟩
  have hcalc : (calcRatingHistory (eloMatchUpd defaultEloSystem) (emptyDD 1500)
      [exMatch]).getD 0 (emptyDD 1500) =
      (eloMatchUpd defaultEloSystem exMatch (emptyDD 1500)).2 := by
    rw [calcRatingHistory_cons]
    rfl
  rw [hcalc]
  unfold eloMatchUpd
  have hwin : winnersOf exMatch = ["w1", "w2", "w3", "w4", "w5"] := by decide
  have hlos : losersOf exMatch = ["l1", "l2", "l3", "l4", "l5"] := by decide
  rw [hwin, hlos]
  rw [elo_result_winner defaultEloSystem _ _ _ "w1" (by decide) (by decide) (by decide)]
  have hva : ∀ n, (emptyDD (1500:ℝ)).valueAt n = 1500 := fun n => rfl
  have hm1 : ddMean (emptyDD 1500) ["w1", "w2", "w3", "w4", "w5"] = 1500 := by
    unfold ddMean
    simp [hva]
    norm_num
  have hm2 : ddMean (emptyDD 1500) ["l1", "l2", "l3", "l4", "l5"] = 1500 := by
    unfold ddMean
    simp [hva]
    norm_num
  rw [hva "w1", hm1, hm2]
  unfold winnerDelta
  have hz : ((1500:ℝ) - 1500) / 400 = 0 := by norm_num
  rw [hz, Real.rpow_zero]
  norm_num [defaultEloSystem]

/-- Claim C1 amended: the pipeline's match list is sorted newest-first, and
the history is indexed in that same reverse-chronological direction:
history[len(matches)] (the last snapshot) is the state before the
chronologically earliest match — value-identical to the start snapshot — and
for each i, history[i+1] and history[i] bracket matches[i] of the newest-first
working set (equivalently, history[n-i] and history[n-i-1] bracket
chronological match i).  Value semantics are compared because the builder
materialises lazy defaults inside earlier snapshots as it reads them. -/
theorem C1_history_indexing {α : Type}
    (upd : MatchRec → DefaultDict α → DefaultDict α × DefaultDict α)
    (start : DefaultDict α) (records : List MatchRec)
    (hmut : ∀ m (d : DefaultDict α) k, ((upd m d).1).valueAt k = d.valueAt k)
    (hext : ∀ m (d d' : DefaultDict α), (∀ j, d.valueAt j = d'.valueAt j) →
      ∀ j, ((upd m d).2).valueAt j = ((upd m d').2).valueAt j) :
    List.Sorted (fun a b => b.creation_time ≤ a.creation_time) (lqMatches records) ∧
    (lqHistory upd start records).length = (lqMatches records).length + 1 ∧
    (∀ (junk : DefaultDict α) (k : String),
      ((lqHistory upd start records).getD (lqMatches records).length junk).valueAt k =
        start.valueAt k) ∧
    (∀ i, i < (lqMatches records).length → ∀ (junk : DefaultDict α) (k : String),
      ((lqHistory upd start records).getD i junk).valueAt k =
        ((upd ((lqMatches records).getD i noMatch)
          ((lqHistory upd start records).getD (i+1) junk)).2).valueAt k) := by
  refine ⟨?_, calcRatingHistory_length upd start _, ?_, ?_⟩
  · haveI : IsTotal MatchRec (fun a b => b.creation_time ≤ a.creation_time) :=
      ⟨fun a b => le_total b.creation_time a.creation_time⟩
    haveI : IsTrans MatchRec (fun a b => b.creation_time ≤ a.creation_time) :=
      ⟨fun _ _ _ hab hbc => le_trans hbc hab⟩
    exact List.sorted_insertionSort _ _
  · intro junk k
    unfold lqHistory
    rw [calc_valueAt_drop upd hmut hext start _ _ le_rfl junk k]
    simp [replayPure]
  · intro i hi junk k
    unfold lqHistory
    have h1 := calc_valueAt_drop upd hmut hext start (lqMatches records) i
      (le_of_lt hi) junk k
    have h2 : ∀ k', ((calcRatingHistory upd start (lqMatches records)).getD (i+1) junk).valueAt k' =
        (replayPure upd start ((lqMatches records).drop (i+1))).valueAt k' :=
      fun k' => calc_valueAt_drop upd hmut hext start _ (i+1) hi junk k'
    have hdrop : (lqMatches records).drop i =
        (lqMatches records).getD i noMatch :: (lqMatches records).drop (i+1) := by
      rw [List.drop_eq_getElem_cons hi]
      rw [List.getD_eq_getElem (lqMatches records) noMatch hi]
    rw [h1, hdrop]
    have hstep : replayPure upd start
        ((lqMatches records).getD i noMatch :: (lqMatches records).drop (i+1)) =
        (upd ((lqMatches records).getD i noMatch)
          (replayPure upd start ((lqMatches records).drop (i+1)))).2 := rfl
    rw [hstep]
    exact hext _ _ _ (fun j => (h2 j).symm) k

/-- Witness for C1 amended: the one-match pipeline has two snapshots; the last
one keeps w1 at the 1500 start value. -/
theorem C1_history_indexing_witness :
    (lqHistory (eloMatchUpd defaultEloSystem) (emptyDD 1500) [exMatch]).length =
      (lqMatches [exMatch]).length + 1 ∧
    ((lqHistory (eloMatchUpd defaultEloSystem) (emptyDD 1500) [exMatch]).getD
        (lqMatches [exMatch]).length (emptyDD 1500)).valueAt "w1" =
      (emptyDD (1500:ℝ)).valueAt "w1" := by
  have h := C1_history_indexing (eloMatchUpd defaultEloSystem) (emptyDD 1500) [exMatch]
    (fun m d k => eloMatchUpd_mut defaultEloSystem m d k)
    (fun m d d' hdd j => eloMatchUpd_congr defaultEloSystem m d d' hdd j)
  exact ⟨h.2.1, h.2.2.1 (emptyDD 1500) "w1"⟩

/-- Claim C6 counterexample: get_new_ratings on a fresh defaultdict with two
unseen players adds two default entries to the caller's ratings mapping — the
generator sums read ratings[name], and a defaultdict read of a missing key
inserts it.  The claim says no entries are added. -/
theorem C6_counterexample :
    ((eloGetNewRatings defaultEloSystem ["a"] ["b"] (emptyDD 1500)).1).entries =
      [("a", (1500:ℝ)), ("b", (1500:ℝ))] ∧
    (emptyDD (1500:ℝ)).entries = [] := by
  constructor
  · rw [eloGetNewRatings_eq]
    simp only [readSum, List.foldl_cons, List.foldl_nil]
    have h1 : (emptyDD (1500:ℝ)).get "a" = (1500, ⟨[("a", 1500)], 1500⟩) := rfl
    rw [h1]
    have h2 : (⟨[("a", (1500:ℝ))], 1500⟩ : DefaultDict ℝ).get "b" =
        (1500, ⟨[("a", 1500), ("b", 1500)], 1500⟩) := by
      unfold DefaultDict.get
      have : findVal [("a", (1500:ℝ))] "b" = none := by
        simp [findVal]
      rw [this]
      rfl
    rw [h2]
  · rfl

/-- Claim C6 amended: the rating update changes no existing entry of the input
mapping and leaves its value semantics intact (the only mutation is inserting
factory defaults for unseen participants); the returned mapping keeps every
player outside winners ∪ losers at the input rating; get_leaderboard with no
name list returns the snapshot object unchanged, and with a supplied name
list it changes no existing entry and no value, only materialising defaults
for missing supplied names. -/
theorem C6_frame (sys : EloSystem) (winners losers : List String) (d : DefaultDict ℝ)
    {β K : Type} [LinearOrder K] (d2 : DefaultDict β) (ns : List String) (key : β → K) :
    (∀ k, ((eloGetNewRatings sys winners losers d).1).valueAt k = d.valueAt k) ∧
    (∀ k v, findVal d.entries k = some v →
      findVal ((eloGetNewRatings sys winners losers d).1).entries k = some v) ∧
    (∀ k, k ∉ winners → k ∉ losers →
      ((eloGetNewRatings sys winners losers d).2).valueAt k = d.valueAt k) ∧
    (get_leaderboard d2 none key).2 = d2 ∧
    (∀ k, ((get_leaderboard d2 (some ns) key).2).valueAt k = d2.valueAt k) ∧
    (∀ k v, findVal d2.entries k = some v →
      findVal ((get_leaderboard d2 (some ns) key).2).entries k = some v) := by
  refine ⟨elo_input_valueAt sys winners losers d,
    fun k v h => elo_input_findVal sys winners losers d k v h,
    fun k hw hl => elo_result_frame sys winners losers d k hw hl,
    get_leaderboard_none_snd d2 key, ?_, ?_⟩
  · intro k
    unfold get_leaderboard
    dsimp only
    exact readNames_valueAt ns d2 k
  · intro k v h
    unfold get_leaderboard
    dsimp only
    exact readNames_findVal_of_found ns d2 k v h

/-- Witness for C6 amended: a concrete no-key leaderboard call returns its
snapshot unchanged, and a bystander keeps the default rating through an
update. -/
theorem C6_frame_witness :
    (get_leaderboard tsSnap none tsRatingOrd).2 = tsSnap ∧
    ((eloGetNewRatings defaultEloSystem ["a"] ["b"] (emptyDD 1500)).2).valueAt "c" = 1500 := by
  have h := C6_frame defaultEloSystem ["a"] ["b"] (emptyDD 1500) tsSnap [] tsRatingOrd
  have h2 := C6_frame defaultEloSystem ["a"] ["b"] (emptyDD 1500) tsSnap [] tsRatingOrd
  exact ⟨h.2.2.2.1, (h2.2.2.1 "c" (by decide) (by decide)).trans rfl⟩

/-- Claim C10: get_avg_kda guards only the player's full match list.  For a
player with at least one match and a champion filter matching none of them the
filtered list is empty and the averaging loop divides by n_matches = 0 — a
ZeroDivisionError, not the (0, 0, 0) the claim promises (and the
no-matches-at-all branch returns the pair ((0, 0, 0), 0), not a bare triple).
With a nonempty filtered list the component-wise means are returned. -/
theorem C10_avg_kda_divzero :
    kdaStats._matches ≠ [] ∧
    matchesWithChamp kdaStats (some "Lux") = [] ∧
    getAvgKda kdaStats (some "Lux") = Except.error "ZeroDivisionError" ∧
    getAvgKda kdaStats (some "Ahri") =
      Except.ok (KdaResult.tripleShape (5, 2, 7)) ∧
    getAvgKda (mkPlayerStats "p" []) none = Except.ok (KdaResult.pairShape (0, 0, 0) 0) := by
  refine ⟨by decide, by decide, by decide, ?_, by decide⟩
  have hm : matchesWithChamp kdaStats (some "Ahri") = [kdaMatch] := by decide
  have hne : kdaStats._matches.isEmpty = false := by decide
  unfold getAvgKda
  rw [hne, hm]
  norm_num [pKills, pDeaths, pAssists, kdaMatch, kdaStats, mkPlayerStats, findVal]

/-- Claim C7: the leaderboard contains exactly the names of the (defaulted)
snapshot, stable-sorted descending by the ordering key; with the Bayesian
team-skill ratings the order is primarily by mean descending, equal means
broken in favour of lower uncertainty — the rating objects' comparison being
modelled from the spec, since LosersQueue.leaderboard passes no key and the
rating class's own ordering lives in the external trueskill library. -/
theorem C7_leaderboard_order {α K : Type} [LinearOrder K] (d : DefaultDict α)
    (names : Option (List String)) (key : α → K) (dts : DefaultDict TSRating) :
    List.Perm (get_leaderboard d names key).1 ((get_leaderboard d names key).2).entries ∧
    List.Sorted (fun a b => key b.2 ≤ key a.2) (get_leaderboard d names key).1 ∧
    (∀ v : K, (get_leaderboard d names key).1.filter (fun y => decide (key y.2 = v)) =
      ((get_leaderboard d names key).2).entries.filter (fun y => decide (key y.2 = v))) ∧
    (names = none → (get_leaderboard d names key).2 = d) ∧
    (∀ r : TSRating, tsRatingKey r = toLex (r.mu, -r.sigma)) ∧
    List.Sorted (fun a b => b.2.mu < a.2.mu ∨ (b.2.mu = a.2.mu ∧ a.2.sigma ≤ b.2.sigma))
      (tsLeaderboard dts) := by
  refine ⟨?_, ?_, ?_, ?_, fun r => rfl, ?_⟩
  · rw [get_leaderboard_fst]
    exact sortDesc_perm _ _
  · rw [get_leaderboard_fst]
    exact sortDesc_sorted _ _
  · intro v
    rw [get_leaderboard_fst]
    exact sortDesc_stable _ v _
  · intro h
    subst h
    exact get_leaderboard_none_snd d key
  · have hs := sortDesc_sorted (fun p : String × TSRating => tsRatingOrd p.2)
      ((get_leaderboard dts none tsRatingOrd).2).entries
    have heq : tsLeaderboard dts =
        sortDesc (fun p : String × TSRating => tsRatingOrd p.2)
          ((get_leaderboard dts none tsRatingOrd).2).entries := get_leaderboard_fst dts none _
    rw [heq]
    refine hs.imp ?_
    intro a b hab
    have hle : toLex (b.2.mu, -b.2.sigma) ≤ toLex (a.2.mu, -a.2.sigma) := hab
    rcases (Prod.Lex.le_iff (b.2.mu, -b.2.sigma) (a.2.mu, -a.2.sigma)).mp hle with hlt | ⟨heq2, hle2⟩
    · exact Or.inl hlt
    · exact Or.inr ⟨heq2, neg_le_neg_iff.mp hle2⟩

/-- Witness for C7: on a snapshot with an equal-mean pair the leaderboard puts
the lower-uncertainty player first, and the no-name-list call returns the
snapshot unchanged. -/
theorem C7_leaderboard_order_witness :
    tsLeaderboard tsSnap =
      [("c", ⟨30, 5⟩), ("b", ⟨25, 3⟩), ("a", ⟨25, 8⟩)] ∧
    (get_leaderboard tsSnap none tsRatingOrd).2 = tsSnap :=
  ⟨by decide,
    (C7_leaderboard_order tsSnap none tsRatingOrd tsSnap).2.2.2.1 rfl⟩

end LosersQ
